import Mathlib

/-!
AutoDiff_POC : `backward.cpp`

A shallow embedding of class `Var` of `src/backward.cpp` and the properties
of its reads (`getVal`, `getGrad`) and of `operator+`.

Modelling choices.

* `double` is read as an exact number: `ℚ`.
* A `Var *` is an address (`Addr`); `nullptr` is `none`.  Objects live in a
  heap `Addr → Option Var`.
* `std::function< double (Var *, Var *) >` is a Lean function of the two
  pointers.  The only thing a closure of the source does with a pointer is
  call `getVal` through it, so the closure receives that call as its first
  argument.
* `std::unordered_map< const Var *, std::vector< Expression > >` is an
  association list; a real map has no repeated key (`GradMap.WF`).
* `getVal` is recursive through the stored closures without a decreasing
  measure, so it is given fuel: `none` means that the call did not return
  within the given recursion depth.
* Where the rounding of `double` additions matters, the summation loop is
  also given with IEEE 754 binary64 round-to-nearest (`sumEvalDouble`).
* Where side effects of closures matter, closures are given by their bodies
  (`Body`: the calls made through the pointers, writes included) and the reads
  are run on memory (`runRead`).
-/

namespace AutoDiff

/-- Identity of a `Var`: its address. -/
abbrev Addr := Nat

/-- The type `ExpFunc = std::function< double (Var *, Var * ) >`.  The first
argument is the method call `p->getVal()` made available to the closure body. -/
abbrev ExpFunc := (Addr → Option ℚ) → Option Addr → Option Addr → Option ℚ

/-- Class `Var::Expression` : a closure and its two captured operands. -/
structure Expression where
  func : ExpFunc
  input_x : Option Addr
  input_y : Option Addr

/-- Method `Expression::eval` : `return func( input_x, input_y );`. -/
def Expression.eval (callGetVal : Addr → Option ℚ) (e : Expression) : Option ℚ :=
  e.func callGetVal e.input_x e.input_y

/-- The lambda `init_val_exp` : `return x->getVal();`. -/
def init_val_exp : ExpFunc := fun callGetVal x _ => x.bind callGetVal

/-- The lambda `init_grad_exp` : `return 1;`. -/
def init_grad_exp : ExpFunc := fun _ _ _ => some 1

/-- The member `m_grad_expressions`, as an association list. -/
abbrev GradMap := List (Addr × List Expression)

/-- Lookup `m.find( ptr )` : the vector stored under `ptr`, if any. -/
def GradMap.find : GradMap → Addr → Option (List Expression)
  | [], _ => none
  | (k, es) :: rest, ptr => if k = ptr then some es else GradMap.find rest ptr

/-- Update through a found iterator: `it->second` becomes `f it->second`. -/
def GradMap.modify : GradMap → Addr → (List Expression → List Expression) → GradMap
  | [], _, _ => []
  | (k, es) :: rest, ptr, f =>
    if k = ptr then (k, f es) :: rest else (k, es) :: GradMap.modify rest ptr f

/-- Assignment `m[ptr] = exps`. -/
def GradMap.assign : GradMap → Addr → List Expression → GradMap
  | [], ptr, exps => [(ptr, exps)]
  | (k, es) :: rest, ptr, exps =>
    if k = ptr then (k, exps) :: rest else (k, es) :: GradMap.assign rest ptr exps

/-- The keys of the map. -/
def GradMap.keys (m : GradMap) : List Addr := m.map Prod.fst

/-- A map holds each key once. -/
def GradMap.WF (m : GradMap) : Prop := m.keys.Nodup

/-- Class `Var`. -/
structure Var where
  m_val : ℚ
  m_grad : ℚ
  m_val_expressions : List Expression
  m_grad_expressions : GradMap

/-- Memory: the object stored at each address. -/
abbrev Heap := Addr → Option Var

/-- Heap with object `v` placed at address `a`. -/
def Heap.store (h : Heap) (a : Addr) (v : Var) : Heap :=
  fun b => if b = a then some v else h b

/-- The empty heap. -/
def Heap.empty : Heap := fun _ => none

/-- Constructor `Var( double val = 0.0 )` run for the object at address `this`. -/
def Var.construct (this : Addr) (val : ℚ) : Var :=
  { m_val := val
    m_grad := 1
    m_val_expressions := [] ++ [Expression.mk init_val_exp (some this) none]
    m_grad_expressions :=
      GradMap.assign [] this [Expression.mk init_grad_exp (some this) none] }

/-- Constructor with the default argument: `Var z;`. -/
def Var.constructDefault (this : Addr) : Var := Var.construct this 0

/-- Method `addValExpression`. -/
def Var.addValExpression (v : Var) (exp : Expression) : Var :=
  { v with m_val_expressions := v.m_val_expressions ++ [exp] }

/-- Method `addGradExpression( const Var * ptr, const Expression & exp )`. -/
def Var.addGradExpression (v : Var) (ptr : Addr) (exp : Expression) : Var :=
  match v.m_grad_expressions.find ptr with
  | some _ =>
    { v with m_grad_expressions := v.m_grad_expressions.modify ptr (fun es => es ++ [exp]) }
  | none =>
    { v with m_grad_expressions := v.m_grad_expressions.assign ptr [exp] }

/-- Method `addGradExpression( const Var * ptr, const std::vector<Expression> exps )`. -/
def Var.addGradExpressionVec (v : Var) (ptr : Addr) (exps : List Expression) : Var :=
  match v.m_grad_expressions.find ptr with
  | some _ =>
    { v with m_grad_expressions := v.m_grad_expressions.modify ptr (fun es => es ++ exps) }
  | none =>
    { v with m_grad_expressions := v.m_grad_expressions.assign ptr exps }

/-- Method `setVal`. -/
def Var.setVal (v : Var) (val : ℚ) : Var := { v with m_val := val }

/-- The loop `res = 0.0; for exp in exps: res += exp.eval(); return res`, the
doubles read as exact reals (`sumEvalDouble` is the same loop with the rounded
addition). -/
def sumEval (callGetVal : Addr → Option ℚ) (exps : List Expression) : Option ℚ :=
  exps.foldlM (fun res e => (e.eval callGetVal).map (fun r => res + r)) 0

/-- Method `getVal`, with `fuel` bounding the depth of nested `getVal` calls. -/
def Var.getVal (heap : Heap) : Nat → Var → Option ℚ
  | 0, _ => none
  | fuel + 1, v =>
    sumEval (fun a => (heap a).bind (Var.getVal heap fuel)) v.m_val_expressions

/-- The call `p->getVal()` through a pointer, as handed to closures. -/
def callGetVal (heap : Heap) (fuel : Nat) : Addr → Option ℚ :=
  fun a => (heap a).bind (Var.getVal heap fuel)

/-- Method `getGrad( const Var & on_input )`; `fuel` bounds the depth of the
`getVal` calls a stored closure may make. -/
def Var.getGrad (heap : Heap) (fuel : Nat) (v : Var) (on_input : Addr) : Option ℚ :=
  match v.m_grad_expressions.find on_input with
  | some exps => sumEval (callGetVal heap fuel) exps
  | none => some 0

/-- The loop `for( auto & [ptr, exps] : m ) z.addGradExpression( ptr, exps );`. -/
def Var.mergeGrad (z : Var) (m : GradMap) : Var :=
  m.foldl (fun z p => z.addGradExpressionVec p.1 p.2) z

/-- Method `operator+`; `zaddr` is the address of the local `Var z`, whose
contents are returned (`return std::move( z )`). -/
def Var.add (zaddr : Addr) (self other : Var) : Var :=
  let z := Var.constructDefault zaddr
  let z := z.mergeGrad self.m_grad_expressions
  let z := z.mergeGrad other.m_grad_expressions
  z

/-- All the vectors the entries of `m` hold for key `ptr`, in entry order. -/
def GradMap.gather : GradMap → Addr → List Expression
  | [], _ => []
  | (k, es) :: rest, ptr =>
    if k = ptr then es ++ GradMap.gather rest ptr else GradMap.gather rest ptr

/-- Deciding whether a concrete map holds each key once. -/
instance GradMap.decidableWF (m : GradMap) : Decidable m.WF :=
  inferInstanceAs (Decidable m.keys.Nodup)

/-- Heap after the object at address `a` has been destroyed. -/
def Heap.free (h : Heap) (a : Addr) : Heap :=
  fun b => if b = a then none else h b

/-- Memory after `Var x( 3.0 ); Var y( 4.0 ); Var z = x + y;` : `x` at 1, `y` at 2,
the local `z` of `operator+` was at 3 and is gone, the result lives at 4. -/
def heapSum34 : Heap :=
  ((Heap.empty.store 1 (Var.construct 1 3)).store 2 (Var.construct 2 4)).store 4
    (Var.add 3 (Var.construct 1 3) (Var.construct 2 4))

/-- The same program when the result object is the local `z` itself (at 3). -/
def heapSum34InPlace : Heap :=
  ((Heap.empty.store 1 (Var.construct 1 3)).store 2 (Var.construct 2 4)).store 3
    (Var.add 3 (Var.construct 1 3) (Var.construct 2 4))

/-- Memory after `Var x( 1.0 ); Var y( 2.0 ); Var z = x + y; x.setVal( 10.0 );` :
`x` at 1, `y` at 2, the result at 4 (the local `z` was at 3). -/
def heapLive : Heap :=
  ((Heap.empty.store 1 ((Var.construct 1 1).setVal 10)).store 2 (Var.construct 2 2)).store 4
    (Var.add 3 (Var.construct 1 1) (Var.construct 2 2))

/-- The same program when the result object is the local `z` itself (at 3). -/
def heapLiveInPlace : Heap :=
  ((Heap.empty.store 1 ((Var.construct 1 1).setVal 10)).store 2 (Var.construct 2 2)).store 3
    (Var.add 3 (Var.construct 1 1) (Var.construct 2 2))

/-- Statement `p->setVal( val )` for the object at address `this`. -/
def Heap.setValAt (h : Heap) (this : Addr) (val : ℚ) : Heap :=
  match h this with
  | some v => h.store this (v.setVal val)
  | none => h

/-- Statement `Var r = self + other;` : `operator+` runs on the objects at
`self` and `other` with its local `z` at `zaddr`; the returned object is
placed at `r` and the local is destroyed. -/
def Heap.plusAt (h : Heap) (self other zaddr r : Addr) : Heap :=
  match h self, h other with
  | some x, some y => (h.free zaddr).store r (Var.add zaddr x y)
  | _, _ => h

/-- Two objects that differ at most in the stored literal `m_val`. -/
def Var.sameButVal (v w : Var) : Prop :=
  v.m_grad = w.m_grad ∧ v.m_val_expressions = w.m_val_expressions
    ∧ v.m_grad_expressions = w.m_grad_expressions

/-- Two memories with the same objects at the same addresses, the objects
differing at most in the stored literal. -/
def Heap.sameButVal (h₁ h₂ : Heap) : Prop :=
  ∀ a : Addr, (h₁ a = none ∧ h₂ a = none)
    ∨ ∃ v w : Var, h₁ a = some v ∧ h₂ a = some w ∧ v.sameButVal w

/-- Rounding to the nearest integer, a tie going to the even one. -/
def roundHalfEven (x : ℚ) : ℤ :=
  if x - ⌊x⌋ < 1 / 2 then ⌊x⌋
  else if 1 / 2 < x - ⌊x⌋ then ⌊x⌋ + 1
  else if ⌊x⌋ % 2 = 0 then ⌊x⌋ else ⌊x⌋ + 1

/-- Spacing of the binary64 numbers around `q`: `2 ^ (e - 52)` where
`2 ^ e ≤ |q| < 2 ^ (e + 1)`, and `2 ^ (-1074)` below the normal range. -/
def ulpDouble (q : ℚ) : ℚ := (2 : ℚ) ^ (max (Int.log 2 |q|) (-1022) - 52)

/-- The binary64 number nearest to the exact value `q`, ties to even (the
default IEEE 754 rounding; overflow to infinity is not modelled). -/
def roundDouble (q : ℚ) : ℚ := (roundHalfEven (q / ulpDouble q) : ℚ) * ulpDouble q

/-- Addition of two `double`s: the exact sum, rounded. -/
def doubleAdd (a b : ℚ) : ℚ := roundDouble (a + b)

/-- The loop `res = 0.0; for exp in exps: res += exp.eval(); return res`, with
`+=` the rounded addition of `double` rather than the exact one of `sumEval`. -/
def sumEvalDouble (callGetVal : Addr → Option ℚ) (exps : List Expression) : Option ℚ :=
  exps.foldlM (fun res e => (e.eval callGetVal).map (fun r => doubleAdd res r)) 0

/-- Method `getVal` with rounded additions. -/
def Var.getValDouble (heap : Heap) : Nat → Var → Option ℚ
  | 0, _ => none
  | fuel + 1, v =>
    sumEvalDouble (fun a => (heap a).bind (Var.getValDouble heap fuel)) v.m_val_expressions

/-- Method `getGrad` with rounded additions. -/
def Var.getGradDouble (heap : Heap) (fuel : Nat) (v : Var) (on_input : Addr) : Option ℚ :=
  match v.m_grad_expressions.find on_input with
  | some exps => sumEvalDouble (fun a => (heap a).bind (Var.getValDouble heap fuel)) exps
  | none => some 0

/-- The expression `Expression( [r]( Var *, Var * ) { return r; }, nullptr, nullptr )`. -/
def constExpression (r : ℚ) : Expression := Expression.mk (fun _ _ _ => some r) none none

/-- Body of a closure `double ( Var *, Var * )`, as the calls it makes through
`Var` pointers before it returns: `p->getVal()`, `p->getGrad( *q )` and
`p->setVal( val )`.  The pointers a closure receives are not `const`, so a body
may write. -/
inductive Body where
  | ret (r : ℚ)
  | fault
  | getVal (p : Addr) (next : ℚ → Body)
  | getGrad (p on_input : Addr) (next : ℚ → Body)
  | setVal (p : Addr) (val : ℚ) (next : Body)

/-- Class `Var::Expression` with the closure given by its body. -/
structure EffExpression where
  func : Option Addr → Option Addr → Body
  input_x : Option Addr
  input_y : Option Addr

/-- Class `Var` over such expressions. -/
structure EffVar where
  m_val : ℚ
  m_grad : ℚ
  m_val_expressions : List EffExpression
  m_grad_expressions : List (Addr × List EffExpression)

/-- Memory of such objects. -/
abbrev EffHeap := Addr → Option EffVar

/-- The lambda `init_val_exp` : `return x->getVal();`. -/
def eff_init_val_exp : Option Addr → Option Addr → Body
  | some x, _ => Body.getVal x Body.ret
  | none, _ => Body.fault

/-- The lambda `init_grad_exp` : `return 1;`. -/
def eff_init_grad_exp : Option Addr → Option Addr → Body :=
  fun _ _ => Body.ret 1

/-- Constructor `Var( double val = 0.0 )` run for the object at address `this`. -/
def EffVar.construct (this : Addr) (val : ℚ) : EffVar :=
  { m_val := val
    m_grad := 1
    m_val_expressions := [EffExpression.mk eff_init_val_exp (some this) none]
    m_grad_expressions := [(this, [EffExpression.mk eff_init_grad_exp (some this) none])] }

/-- The map after `it->second.emplace_back( exp )` when `ptr` is found, after
`m[ptr] = { exp }` when it is not. -/
def EffVar.appendGrad (ptr : Addr) (exp : EffExpression) :
    List (Addr × List EffExpression) → List (Addr × List EffExpression)
  | [] => [(ptr, [exp])]
  | (k, es) :: rest =>
    if k = ptr then (k, es ++ [exp]) :: rest else (k, es) :: EffVar.appendGrad ptr exp rest

/-- Method `addGradExpression( const Var * ptr, const Expression & exp )`. -/
def EffVar.addGradExpression (v : EffVar) (ptr : Addr) (exp : EffExpression) : EffVar :=
  { v with m_grad_expressions := EffVar.appendGrad ptr exp v.m_grad_expressions }

/-- A body that only reads: it makes no `setVal` call. -/
def Body.readOnly : Body → Prop
  | Body.ret _ => True
  | Body.fault => True
  | Body.getVal _ next => ∀ r : ℚ, Body.readOnly (next r)
  | Body.getGrad _ _ next => ∀ r : ℚ, Body.readOnly (next r)
  | Body.setVal _ _ _ => False

/-- An object all of whose stored expressions only read. -/
def EffVar.readOnly (v : EffVar) : Prop :=
  (∀ e ∈ v.m_val_expressions, (e.func e.input_x e.input_y).readOnly)
    ∧ (∀ p ∈ v.m_grad_expressions, ∀ e ∈ p.2, (e.func e.input_x e.input_y).readOnly)

/-- A memory all of whose stored expressions only read. -/
def EffHeap.readOnly (h : EffHeap) : Prop :=
  ∀ (a : Addr) (v : EffVar), h a = some v → v.readOnly

theorem sumEval_nil (c : Addr → Option ℚ) : sumEval c [] = some 0 := rfl

theorem foldlM_shift (c : Addr → Option ℚ) (l : List Expression) (acc : ℚ) :
    l.foldlM (fun res e => (e.eval c).map (fun r => res + r)) acc
      = (sumEval c l).map (fun s => acc + s) := by
  induction l generalizing acc with
  | nil => simp [sumEval]
  | cons e es ih =>
    simp only [sumEval, List.foldlM_cons]
    cases he : e.eval c with
    | none => simp
    | some r =>
      simp only [Option.map_some', Option.bind_eq_bind, Option.some_bind]
      rw [ih (acc + r), ih (0 + r)]
      cases sumEval c es with
      | none => simp
      | some s => simp [add_assoc]

theorem sumEval_cons (c : Addr → Option ℚ) (e : Expression) (es : List Expression) :
    sumEval c (e :: es) = (e.eval c).bind (fun r => (sumEval c es).map (fun s => r + s)) := by
  simp only [sumEval, List.foldlM_cons]
  cases he : e.eval c with
  | none => simp
  | some r =>
    simp only [Option.map_some', Option.bind_eq_bind, Option.some_bind]
    rw [foldlM_shift]
    simp [sumEval]

theorem sumEval_append (c : Addr → Option ℚ) (l₁ l₂ : List Expression) :
    sumEval c (l₁ ++ l₂)
      = (sumEval c l₁).bind (fun a => (sumEval c l₂).map (fun b => a + b)) := by
  induction l₁ with
  | nil =>
    simp only [List.nil_append, sumEval_nil, Option.some_bind]
    cases sumEval c l₂ <;> simp
  | cons e es ih =>
    rw [List.cons_append, sumEval_cons, sumEval_cons, ih]
    cases e.eval c with
    | none => simp
    | some r =>
      cases sumEval c es with
      | none => simp
      | some a =>
        cases sumEval c l₂ with
        | none => simp
        | some b => simp [add_assoc]

theorem sumEval_eq_mapM (c : Addr → Option ℚ) (l : List Expression) :
    sumEval c l = (l.mapM (fun e : Expression => e.eval c)).map List.sum := by
  induction l with
  | nil => rfl
  | cons e es ih =>
    rw [sumEval_cons, ih, List.mapM_cons]
    cases e.eval c with
    | none => simp
    | some r =>
      cases List.mapM (fun e : Expression => e.eval c) es with
      | none => simp
      | some rs => simp
theorem GradMap.find_eq_none_iff (m : GradMap) (k : Addr) :
    m.find k = none ↔ k ∉ m.keys := by
  induction m with
  | nil => simp [GradMap.find, GradMap.keys]
  | cons p rest ih =>
    obtain ⟨a, es⟩ := p
    by_cases h : a = k
    · simp [GradMap.find, GradMap.keys, h]
    · have h2 : ¬ k = a := fun e => h e.symm
      simpa [GradMap.find, GradMap.keys, h, h2] using ih

theorem GradMap.find_modify (m : GradMap) (k : Addr) (f : List Expression → List Expression)
    (k2 : Addr) :
    (m.modify k f).find k2 = if k2 = k then (m.find k).map f else m.find k2 := by
  induction m with
  | nil => simp [GradMap.modify, GradMap.find]
  | cons p rest ih =>
    obtain ⟨a, es⟩ := p
    by_cases h : a = k
    · subst h
      by_cases h2 : a = k2
      · subst h2; simp [GradMap.modify, GradMap.find]
      · have h3 : ¬ k2 = a := fun e => h2 e.symm
        simp [GradMap.modify, GradMap.find, h2, h3]
    · by_cases h2 : a = k2
      · subst h2; simp [GradMap.modify, GradMap.find, h]
      · simp [GradMap.modify, GradMap.find, h, h2, ih]

theorem GradMap.find_assign (m : GradMap) (k : Addr) (exps : List Expression) (k2 : Addr) :
    (m.assign k exps).find k2 = if k2 = k then some exps else m.find k2 := by
  induction m with
  | nil =>
    by_cases h : k = k2
    · subst h; simp [GradMap.assign, GradMap.find]
    · have h3 : ¬ k2 = k := fun e => h e.symm
      simp [GradMap.assign, GradMap.find, h, h3]
  | cons p rest ih =>
    obtain ⟨a, es⟩ := p
    by_cases h : a = k
    · subst h
      by_cases h2 : a = k2
      · subst h2; simp [GradMap.assign, GradMap.find]
      · have h3 : ¬ k2 = a := fun e => h2 e.symm
        simp [GradMap.assign, GradMap.find, h2, h3]
    · by_cases h2 : a = k2
      · subst h2; simp [GradMap.assign, GradMap.find, h]
      · simp [GradMap.assign, GradMap.find, h, h2, ih]

theorem GradMap.keys_modify (m : GradMap) (k : Addr) (f : List Expression → List Expression) :
    (m.modify k f).keys = m.keys := by
  induction m with
  | nil => rfl
  | cons p rest ih =>
    obtain ⟨a, es⟩ := p
    by_cases h : a = k
    · simp [GradMap.modify, GradMap.keys, h]
    · simpa [GradMap.modify, GradMap.keys, h] using ih

theorem GradMap.keys_assign_of_absent (m : GradMap) (k : Addr) (exps : List Expression)
    (h : m.find k = none) : (m.assign k exps).keys = m.keys ++ [k] := by
  induction m with
  | nil => rfl
  | cons p rest ih =>
    obtain ⟨a, es⟩ := p
    by_cases h2 : a = k
    · simp [GradMap.find, h2] at h
    · simp only [GradMap.find, h2, if_false] at h
      have := ih h
      simpa [GradMap.assign, GradMap.keys, h2] using this

theorem GradMap.gather_of_WF (m : GradMap) (hm : m.WF) (k : Addr) :
    m.gather k = (m.find k).getD [] := by
  induction m with
  | nil => rfl
  | cons p rest ih =>
    obtain ⟨a, es⟩ := p
    have hnd : a ∉ GradMap.keys rest ∧ (GradMap.keys rest).Nodup := by
      simpa [GradMap.WF, GradMap.keys] using hm
    by_cases h : a = k
    · subst h
      have hnone : GradMap.find rest a = none := (GradMap.find_eq_none_iff rest a).2 hnd.1
      have hg := ih hnd.2
      rw [hnone] at hg
      simp [GradMap.gather, GradMap.find, hg]
    · simpa [GradMap.gather, GradMap.find, h] using ih hnd.2

theorem Var.find_addGradExpressionVec (v : Var) (k : Addr) (exps : List Expression) (k2 : Addr) :
    (v.addGradExpressionVec k exps).m_grad_expressions.find k2
      = if k2 = k then some ((v.m_grad_expressions.find k).getD [] ++ exps)
        else v.m_grad_expressions.find k2 := by
  unfold Var.addGradExpressionVec
  cases h : v.m_grad_expressions.find k with
  | none => simp [GradMap.find_assign]
  | some es => simp [GradMap.find_modify, h]

theorem Var.keys_addGradExpressionVec (v : Var) (k : Addr) (exps : List Expression) (k2 : Addr) :
    k2 ∈ (v.addGradExpressionVec k exps).m_grad_expressions.keys
      ↔ k2 = k ∨ k2 ∈ v.m_grad_expressions.keys := by
  unfold Var.addGradExpressionVec
  cases h : v.m_grad_expressions.find k with
  | none =>
    simp only [GradMap.keys_assign_of_absent _ _ _ h, List.mem_append, List.mem_singleton]
    tauto
  | some es =>
    simp only [GradMap.keys_modify]
    constructor
    · exact fun hk => Or.inr hk
    · rintro (rfl | hk)
      · by_contra hc
        rw [(GradMap.find_eq_none_iff _ _).2 hc] at h
        cases h
      · exact hk

theorem Var.find_mergeGrad (z : Var) (m : GradMap) (k : Addr) :
    ((z.mergeGrad m).m_grad_expressions.find k).getD []
      = (z.m_grad_expressions.find k).getD [] ++ m.gather k := by
  induction m generalizing z with
  | nil => simp [Var.mergeGrad, GradMap.gather]
  | cons p rest ih =>
    obtain ⟨a, es⟩ := p
    have hstep : z.mergeGrad ((a, es) :: rest) = (z.addGradExpressionVec a es).mergeGrad rest := rfl
    rw [hstep, ih, Var.find_addGradExpressionVec]
    by_cases h : a = k
    · subst h; simp [GradMap.gather]
    · have h3 : ¬ k = a := fun e => h e.symm
      simp [GradMap.gather, h, h3]

theorem Var.keys_mergeGrad (z : Var) (m : GradMap) (k : Addr) :
    k ∈ (z.mergeGrad m).m_grad_expressions.keys
      ↔ k ∈ z.m_grad_expressions.keys ∨ k ∈ m.keys := by
  induction m generalizing z with
  | nil => simp [Var.mergeGrad, GradMap.keys]
  | cons p rest ih =>
    obtain ⟨a, es⟩ := p
    have hstep : z.mergeGrad ((a, es) :: rest) = (z.addGradExpressionVec a es).mergeGrad rest := rfl
    rw [hstep, ih, Var.keys_addGradExpressionVec]
    simp only [GradMap.keys, List.map_cons, List.mem_cons]
    tauto

theorem Var.add_eq (zaddr : Addr) (x y : Var) :
    Var.add zaddr x y
      = ((Var.constructDefault zaddr).mergeGrad x.m_grad_expressions).mergeGrad
          y.m_grad_expressions := rfl

theorem Var.getGrad_eq (heap : Heap) (fuel : Nat) (v : Var) (k : Addr) :
    v.getGrad heap fuel k
      = sumEval (callGetVal heap fuel) ((v.m_grad_expressions.find k).getD []) := by
  unfold Var.getGrad
  cases v.m_grad_expressions.find k with
  | none => rfl
  | some es => rfl

theorem Var.find_construct (a : Addr) (val : ℚ) (k : Addr) :
    (Var.construct a val).m_grad_expressions.find k
      = if k = a then some [Expression.mk init_grad_exp (some a) none] else none := by
  simp [Var.construct, GradMap.find_assign, GradMap.find]
  by_cases h : k = a
  · subst h; simp
  · have h3 : ¬ a = k := fun e => h e.symm
    simp [h, h3]

theorem Var.find_add (zaddr : Addr) (x y : Var) (hx : x.m_grad_expressions.WF)
    (hy : y.m_grad_expressions.WF) (k : Addr) (hk : k ≠ zaddr) :
    ((Var.add zaddr x y).m_grad_expressions.find k).getD []
      = (x.m_grad_expressions.find k).getD [] ++ (y.m_grad_expressions.find k).getD [] := by
  rw [Var.add_eq, Var.find_mergeGrad, Var.find_mergeGrad, GradMap.gather_of_WF _ hx,
    GradMap.gather_of_WF _ hy, Var.constructDefault, Var.find_construct]
  simp [hk]

theorem Var.getGrad_add (heap : Heap) (fuel : Nat) (zaddr : Addr) (x y : Var)
    (hx : x.m_grad_expressions.WF) (hy : y.m_grad_expressions.WF) (k : Addr) (hk : k ≠ zaddr) :
    (Var.add zaddr x y).getGrad heap fuel k
      = (x.getGrad heap fuel k).bind (fun a => (y.getGrad heap fuel k).map (fun b => a + b)) := by
  rw [Var.getGrad_eq, Var.getGrad_eq, Var.getGrad_eq, Var.find_add zaddr x y hx hy k hk,
    sumEval_append]

theorem Var.getGrad_construct_self (heap : Heap) (fuel : Nat) (a : Addr) (val : ℚ) :
    (Var.construct a val).getGrad heap fuel a = some 1 := by
  rw [Var.getGrad_eq, Var.find_construct]
  simp [sumEval, Expression.eval, init_grad_exp]

theorem Var.getGrad_construct_other (heap : Heap) (fuel : Nat) (a : Addr) (val : ℚ)
    (k : Addr) (hk : k ≠ a) : (Var.construct a val).getGrad heap fuel k = some 0 := by
  rw [Var.getGrad_eq, Var.find_construct]
  simp [hk, sumEval]

theorem Var.WF_construct (a : Addr) (val : ℚ) : (Var.construct a val).m_grad_expressions.WF := by
  simp [GradMap.WF, GradMap.keys, Var.construct, GradMap.assign]

theorem Var.m_val_expressions_addGradExpressionVec (v : Var) (k : Addr)
    (exps : List Expression) :
    (v.addGradExpressionVec k exps).m_val_expressions = v.m_val_expressions := by
  unfold Var.addGradExpressionVec
  cases v.m_grad_expressions.find k <;> rfl

theorem Var.m_val_expressions_mergeGrad (z : Var) (m : GradMap) :
    (z.mergeGrad m).m_val_expressions = z.m_val_expressions := by
  induction m generalizing z with
  | nil => rfl
  | cons p rest ih =>
    exact (ih _).trans (Var.m_val_expressions_addGradExpressionVec z p.1 p.2)

theorem Var.m_val_expressions_add (zaddr : Addr) (x y : Var) :
    (Var.add zaddr x y).m_val_expressions = [Expression.mk init_val_exp (some zaddr) none] := by
  rw [Var.add_eq, Var.m_val_expressions_mergeGrad, Var.m_val_expressions_mergeGrad]
  rfl

theorem Var.getVal_succ (heap : Heap) (fuel : Nat) (v : Var) :
    v.getVal heap (fuel + 1) = sumEval (callGetVal heap fuel) v.m_val_expressions := rfl

/-- A `Var` whose first value-expression is the constructor's seed pointing at
the address the `Var` itself lives at never returns from `getVal`. -/
theorem Var.getVal_seed_self (heap : Heap) (a : Addr) (v : Var) (rest : List Expression)
    (hlive : heap a = some v)
    (hseed : v.m_val_expressions = Expression.mk init_val_exp (some a) none :: rest)
    (fuel : Nat) : v.getVal heap fuel = none := by
  induction fuel with
  | zero => rfl
  | succ n ih =>
    rw [Var.getVal_succ, hseed, sumEval_cons]
    simp [Expression.eval, init_val_exp, callGetVal, hlive, ih]

/-- A `Var` whose first value-expression is a seed pointing at an address
where no object lives never yields a value from `getVal`. -/
theorem Var.getVal_seed_dangling (heap : Heap) (a : Addr) (v : Var) (rest : List Expression)
    (hdead : heap a = none)
    (hseed : v.m_val_expressions = Expression.mk init_val_exp (some a) none :: rest)
    (fuel : Nat) : v.getVal heap fuel = none := by
  cases fuel with
  | zero => rfl
  | succ n =>
    rw [Var.getVal_succ, hseed, sumEval_cons]
    simp [Expression.eval, init_val_exp, callGetVal, hdead]

theorem Var.getVal_sameButVal (h₁ h₂ : Heap) (hh : h₁.sameButVal h₂) (fuel : Nat) :
    ∀ v w : Var, v.sameButVal w → v.getVal h₁ fuel = w.getVal h₂ fuel := by
  induction fuel with
  | zero => intro v w _; rfl
  | succ n ih =>
    intro v w hvw
    rw [Var.getVal_succ, Var.getVal_succ, hvw.2.1]
    congr 1
    funext a
    rcases hh a with ⟨h1, h2⟩ | ⟨x, y, h1, h2, hxy⟩
    · simp [callGetVal, h1, h2]
    · simp [callGetVal, h1, h2, ih x y hxy]

theorem callGetVal_sameButVal (h₁ h₂ : Heap) (hh : h₁.sameButVal h₂) (fuel : Nat) :
    callGetVal h₁ fuel = callGetVal h₂ fuel := by
  funext a
  rcases hh a with ⟨h1, h2⟩ | ⟨x, y, h1, h2, hxy⟩
  · simp [callGetVal, h1, h2]
  · simp [callGetVal, h1, h2, Var.getVal_sameButVal h₁ h₂ hh fuel x y hxy]

theorem Var.getGrad_sameButVal (h₁ h₂ : Heap) (hh : h₁.sameButVal h₂) (fuel : Nat)
    (v w : Var) (hvw : v.sameButVal w) (k : Addr) :
    v.getGrad h₁ fuel k = w.getGrad h₂ fuel k := by
  rw [Var.getGrad_eq, Var.getGrad_eq, hvw.2.2, callGetVal_sameButVal h₁ h₂ hh fuel]

theorem Var.sameButVal_setVal (v : Var) (val : ℚ) : v.sameButVal (v.setVal val) :=
  ⟨rfl, rfl, rfl⟩

theorem Heap.sameButVal_setValAt (h : Heap) (this : Addr) (val : ℚ) :
    h.sameButVal (h.setValAt this val) := by
  intro a
  unfold Heap.setValAt
  cases hthis : h this with
  | none =>
    cases ha : h a with
    | none => exact Or.inl ⟨rfl, ha⟩
    | some v => exact Or.inr ⟨v, v, rfl, ha, rfl, rfl, rfl⟩
  | some x =>
    by_cases hat : a = this
    · subst hat
      exact Or.inr ⟨x, x.setVal val, hthis, by simp [Heap.store], Var.sameButVal_setVal x val⟩
    · cases ha : h a with
      | none => exact Or.inl ⟨rfl, by simp [Heap.store, hat, ha]⟩
      | some v => exact Or.inr ⟨v, v, rfl, by simp [Heap.store, hat, ha], rfl, rfl, rfl⟩

theorem Var.getVal_plusAt (h : Heap) (self other zaddr r : Addr) (hr : h r = none)
    (hz : h zaddr = none) (fuel : Nat) :
    ∀ v : Var, v.getVal (h.plusAt self other zaddr r) fuel = v.getVal h fuel := by
  unfold Heap.plusAt
  cases hs : h self with
  | none => intro v; rfl
  | some x =>
    cases ho : h other with
    | none => intro v; rfl
    | some y =>
      simp only
      induction fuel with
      | zero => intro v; rfl
      | succ n ih =>
        intro v
        rw [Var.getVal_succ, Var.getVal_succ]
        congr 1
        funext a
        by_cases har : a = r
        · subst har
          have hnone : (Var.add zaddr x y).getVal ((h.free zaddr).store a (Var.add zaddr x y)) n
              = none := by
            by_cases hza : zaddr = a
            · subst hza
              exact Var.getVal_seed_self _ zaddr _ [] (by simp [Heap.store])
                (Var.m_val_expressions_add zaddr x y) n
            · exact Var.getVal_seed_dangling _ zaddr _ [] (by simp [Heap.store, Heap.free, hza])
                (Var.m_val_expressions_add zaddr x y) n
          simp [callGetVal, Heap.store, hr, hnone]
        · by_cases haz : a = zaddr
          · subst haz
            simp [callGetVal, Heap.store, Heap.free, har, hz]
          · have hsame : ((h.free zaddr).store r (Var.add zaddr x y)) a = h a := by
              simp [Heap.store, Heap.free, har, haz]
            simp only [callGetVal, hsame]
            cases h a with
            | none => rfl
            | some u => exact ih u

theorem callGetVal_plusAt (h : Heap) (self other zaddr r : Addr) (hr : h r = none)
    (hz : h zaddr = none) (fuel : Nat) :
    callGetVal (h.plusAt self other zaddr r) fuel = callGetVal h fuel := by
  funext a
  have hg := Var.getVal_plusAt h self other zaddr r hr hz (fuel + 1)
    (Var.mk 0 0 [Expression.mk init_val_exp (some a) none] [])
  simpa [Var.getVal_succ, sumEval, Expression.eval, init_val_exp] using hg

theorem Heap.plusAt_frame (h : Heap) (self other zaddr r : Addr) (hr : h r = none)
    (hz : h zaddr = none) (a : Addr) (v : Var) (ha : h a = some v) :
    (h.plusAt self other zaddr r) a = some v := by
  have har : a ≠ r := fun e => by rw [e, hr] at ha; cases ha
  have haz : a ≠ zaddr := fun e => by rw [e, hz] at ha; cases ha
  unfold Heap.plusAt
  cases h self with
  | none => exact ha
  | some x =>
    cases h other with
    | none => exact ha
    | some y => simp [Heap.store, Heap.free, har, haz, ha]

theorem Var.addGradExpression_eq_vec (v : Var) (k : Addr) (e : Expression) :
    v.addGradExpression k e = v.addGradExpressionVec k [e] := by
  unfold Var.addGradExpression Var.addGradExpressionVec
  cases v.m_grad_expressions.find k <;> rfl

theorem Var.getGrad_addGradExpressionVec (heap : Heap) (fuel : Nat) (v : Var) (k : Addr)
    (exps : List Expression) :
    (v.addGradExpressionVec k exps).getGrad heap fuel k
      = (v.getGrad heap fuel k).bind (fun g =>
          (sumEval (callGetVal heap fuel) exps).map (fun s => g + s)) := by
  rw [Var.getGrad_eq, Var.getGrad_eq, Var.find_addGradExpressionVec, if_pos rfl]
  exact sumEval_append _ _ _


theorem roundHalfEven_eq (x : ℚ) (n : ℤ) (h1 : (n : ℚ) ≤ x) (h2 : x < n + 1 / 2) :
    roundHalfEven x = n := by
  have hfl : ⌊x⌋ = n := by
    rw [Int.floor_eq_iff]
    constructor
    · exact h1
    · linarith
  unfold roundHalfEven
  rw [hfl, if_pos (by linarith)]

theorem ulpDouble_eq (q : ℚ) (e : ℤ) (hq : 0 < q) (he : -1022 ≤ e) (h1 : (2 : ℚ) ^ e ≤ q)
    (h2 : q < (2 : ℚ) ^ (e + 1)) : ulpDouble q = (2 : ℚ) ^ (e - 52) := by
  have hlog : Int.log 2 q = e := by
    have ha : e ≤ Int.log 2 q :=
      (Int.zpow_le_iff_le_log (by norm_num : 1 < 2) hq).1 (by exact_mod_cast h1)
    have hb : Int.log 2 q < e + 1 :=
      (Int.lt_zpow_iff_log_lt (by norm_num : 1 < 2) hq).1 (by exact_mod_cast h2)
    omega
  unfold ulpDouble
  rw [abs_of_pos hq, hlog, max_eq_left he]

/-- A positive value `q` in the binade `2 ^ e ≤ q < 2 ^ (e + 1)` that lies less
than half a spacing above the `n`-th multiple of the spacing rounds to it. -/
theorem roundDouble_eq (q : ℚ) (e n : ℤ) (hq : 0 < q) (he : -1022 ≤ e)
    (h1 : (2 : ℚ) ^ e ≤ q) (h2 : q < (2 : ℚ) ^ (e + 1))
    (hn1 : (n : ℚ) ≤ q / (2 : ℚ) ^ (e - 52)) (hn2 : q / (2 : ℚ) ^ (e - 52) < n + 1 / 2) :
    roundDouble q = n * (2 : ℚ) ^ (e - 52) := by
  unfold roundDouble
  rw [ulpDouble_eq q e hq he h1 h2, roundHalfEven_eq _ n hn1 hn2]

theorem roundDouble_zero : roundDouble 0 = 0 := by
  simp [roundDouble, roundHalfEven]

/-- The value `0.75` is a `double`. -/
theorem roundDouble_three_quarters : roundDouble (3 / 4) = 3 / 4 := by
  rw [roundDouble_eq (3 / 4) (-1) 6755399441055744 (by norm_num) (by norm_num) (by norm_num)
    (by norm_num) (by norm_num) (by norm_num)]
  norm_num

/-- The value `1e16` is a `double`. -/
theorem roundDouble_1e16 : roundDouble 10000000000000000 = 10000000000000000 := by
  rw [roundDouble_eq 10000000000000000 53 5000000000000000 (by norm_num) (by norm_num)
    (by norm_num) (by norm_num) (by norm_num) (by norm_num)]
  norm_num

/-- The sum `1e16 + 0.75` rounds to `1e16`: the spacing there is `2`. -/
theorem roundDouble_1e16_plus :
    roundDouble (40000000000000003 / 4) = 10000000000000000 := by
  rw [roundDouble_eq (40000000000000003 / 4) 53 5000000000000000 (by norm_num) (by norm_num)
    (by norm_num) (by norm_num) (by norm_num) (by norm_num)]
  norm_num

theorem sumEvalDouble_nil (c : Addr → Option ℚ) : sumEvalDouble c [] = some 0 := rfl

theorem foldlM_double_const (c : Addr → Option ℚ) (r : ℚ) (es : List Expression) (acc : ℚ) :
    (constExpression r :: es).foldlM
        (fun res e => (e.eval c).map (fun t => doubleAdd res t)) acc
      = es.foldlM (fun res e => (e.eval c).map (fun t => doubleAdd res t)) (doubleAdd acc r) := by
  simp [List.foldlM_cons, constExpression, Expression.eval]

theorem sumEvalDouble_three (c : Addr → Option ℚ) :
    sumEvalDouble c [constExpression (3 / 4), constExpression 10000000000000000,
      constExpression (-10000000000000000)] = some 0 := by
  unfold sumEvalDouble
  rw [foldlM_double_const, foldlM_double_const, foldlM_double_const]
  simp only [doubleAdd]
  norm_num [roundDouble_three_quarters, roundDouble_1e16_plus, roundDouble_zero]

theorem sumEvalDouble_one (c : Addr → Option ℚ) :
    sumEvalDouble c [constExpression (3 / 4)] = some (3 / 4) := by
  unfold sumEvalDouble
  rw [foldlM_double_const]
  simp only [doubleAdd]
  norm_num [roundDouble_three_quarters]

theorem sumEvalDouble_two (c : Addr → Option ℚ) :
    sumEvalDouble c [constExpression 10000000000000000, constExpression (-10000000000000000)]
      = some 0 := by
  unfold sumEvalDouble
  rw [foldlM_double_const, foldlM_double_const]
  simp only [doubleAdd]
  norm_num [roundDouble_1e16, roundDouble_zero]

/-- With rounded additions the list `[1e16, -1e16, 0.75]` sums to `0.75` and the
same list taken twice sums to `0.75` again, not to `1.5`: doubling a gradient
by repeating its list is exact only when doubles are read as exact reals. -/
theorem sumEvalDouble_twice (c : Addr → Option ℚ) :
    sumEvalDouble c [constExpression 10000000000000000, constExpression (-10000000000000000),
        constExpression (3 / 4)] = some (3 / 4)
    ∧ sumEvalDouble c ([constExpression 10000000000000000,
          constExpression (-10000000000000000), constExpression (3 / 4)]
        ++ [constExpression 10000000000000000, constExpression (-10000000000000000),
          constExpression (3 / 4)]) = some (3 / 4) := by
  constructor
  · unfold sumEvalDouble
    rw [foldlM_double_const, foldlM_double_const, foldlM_double_const]
    simp only [doubleAdd]
    norm_num [roundDouble_three_quarters, roundDouble_1e16, roundDouble_zero]
  · unfold sumEvalDouble
    rw [List.cons_append, List.cons_append, List.cons_append, List.nil_append,
      foldlM_double_const, foldlM_double_const, foldlM_double_const, foldlM_double_const,
      foldlM_double_const, foldlM_double_const]
    simp only [doubleAdd]
    norm_num [roundDouble_three_quarters, roundDouble_1e16, roundDouble_1e16_plus,
      roundDouble_zero]

/-- C1. Sum rule for gradients: for all Variables `x`, `y` (their gradient maps
being maps, each key once) and every `k` other than the identity of the
freshly constructed result, `(x + y).getGrad(k)` is `x.getGrad(k) + y.getGrad(k)`:
it returns the sum when both operands' gradients return, and returns nothing
when one of them does not.  This covers `k` being a key of both maps (the
lists are concatenated) and of neither (`0 = 0 + 0`). -/
theorem C1_getGrad_add_sum_rule (heap : Heap) (fuel : Nat) (zaddr : Addr) (x y : Var)
    (hx : x.m_grad_expressions.WF) (hy : y.m_grad_expressions.WF)
    (k : Addr) (hk : k ≠ zaddr) :
    (Var.add zaddr x y).getGrad heap fuel k
      = (x.getGrad heap fuel k).bind (fun a => (y.getGrad heap fuel k).map (fun b => a + b)) :=
  Var.getGrad_add heap fuel zaddr x y hx hy k hk

/-- Witness of C1: `x` a leaf at 1, `y = x + (leaf at 2)`, `k = x`, a key of both. -/
theorem C1_getGrad_add_sum_rule_witness :
    (Var.construct 1 3).m_grad_expressions.WF
    ∧ (Var.add 3 (Var.construct 1 3) (Var.construct 2 4)).m_grad_expressions.WF
    ∧ (1 : Addr) ≠ 4
    ∧ (Var.add 4 (Var.construct 1 3)
          (Var.add 3 (Var.construct 1 3) (Var.construct 2 4))).getGrad Heap.empty 0 1
        = ((Var.construct 1 3).getGrad Heap.empty 0 1).bind (fun a =>
            ((Var.add 3 (Var.construct 1 3) (Var.construct 2 4)).getGrad Heap.empty 0 1).map
              (fun b => a + b)) :=
  ⟨by decide, by decide, by decide,
    C1_getGrad_add_sum_rule Heap.empty 0 4 (Var.construct 1 3)
      (Var.add 3 (Var.construct 1 3) (Var.construct 2 4)) (by decide) (by decide) 1 (by decide)⟩

/-- C2, the code at the failing input `x = 3.0`, `y = 4.0`, `z = x + y`:
`operator+` leaves in `z` the single value-expression seeded by the
constructor of its local, which mentions neither `x` nor `y`, and
`z.getVal()` returns no value (so not `7`) at any recursion depth, whether
the result was moved out of the local or is the local itself. -/
theorem C2_add_getVal_never_returns :
    (Var.add 3 (Var.construct 1 3) (Var.construct 2 4)).m_val_expressions
        = [Expression.mk init_val_exp (some 3) none]
    ∧ (∀ fuel : Nat,
        (Var.add 3 (Var.construct 1 3) (Var.construct 2 4)).getVal heapSum34 fuel = none)
    ∧ (∀ fuel : Nat,
        (Var.add 3 (Var.construct 1 3) (Var.construct 2 4)).getVal heapSum34InPlace fuel
          = none) :=
  ⟨Var.m_val_expressions_add 3 _ _,
    fun fuel => Var.getVal_seed_dangling heapSum34 3 _ [] (by simp [heapSum34, Heap.store, Heap.empty])
      (Var.m_val_expressions_add 3 _ _) fuel,
    fun fuel => Var.getVal_seed_self heapSum34InPlace 3 _ [] (by simp [heapSum34InPlace, Heap.store])
      (Var.m_val_expressions_add 3 _ _) fuel⟩

/-- C3, the code at the failing input `Var x( 3.0 ); x.getVal()`: the seeded
value-expression calls `x->getVal()` again instead of reading the literal, so
the call returns no value at any recursion depth; the same for every address,
literal and surrounding memory. -/
theorem C3_leaf_getVal_never_returns :
    (∀ fuel : Nat,
        (Var.construct 1 3).getVal (Heap.empty.store 1 (Var.construct 1 3)) fuel = none)
    ∧ (∀ (h : Heap) (a : Addr) (v : ℚ) (fuel : Nat),
        (Var.construct a v).getVal (h.store a (Var.construct a v)) fuel = none) :=
  ⟨fun fuel => Var.getVal_seed_self _ 1 _ [] (by simp [Heap.store]) rfl fuel,
    fun h a v fuel => Var.getVal_seed_self _ a _ [] (by simp [Heap.store]) rfl fuel⟩

/-- C4. Leaf gradient is a Kronecker delta: a leaf constructed at address `a`
has `getGrad(self) = 1` and `getGrad(other) = 0` for every other Variable; so
two leaves at different addresses have gradient `0` on each other. -/
theorem C4_leaf_getGrad_delta (heap : Heap) (fuel : Nat) (a : Addr) (v : ℚ) :
    (Var.construct a v).getGrad heap fuel a = some 1
    ∧ (∀ other : Addr, other ≠ a → (Var.construct a v).getGrad heap fuel other = some 0)
    ∧ (∀ (b : Addr) (w : ℚ), a ≠ b →
        (Var.construct a v).getGrad heap fuel b = some 0
        ∧ (Var.construct b w).getGrad heap fuel a = some 0) :=
  ⟨Var.getGrad_construct_self heap fuel a v,
    fun other ho => Var.getGrad_construct_other heap fuel a v other ho,
    fun b w hab => ⟨Var.getGrad_construct_other heap fuel a v b (fun e => hab e.symm),
      Var.getGrad_construct_other heap fuel b w a hab⟩⟩

/-- Witness of C4: leaves `x = 3.0` at 1 and `y = 4.0` at 2. -/
theorem C4_leaf_getGrad_delta_witness :
    (2 : Addr) ≠ 1 ∧ (1 : Addr) ≠ 2
    ∧ (Var.construct 1 3).getGrad Heap.empty 0 1 = some 1
    ∧ (Var.construct 1 3).getGrad Heap.empty 0 2 = some 0
    ∧ (Var.construct 2 4).getGrad Heap.empty 0 1 = some 0 :=
  ⟨by decide, by decide, (C4_leaf_getGrad_delta Heap.empty 0 1 3).1,
    (C4_leaf_getGrad_delta Heap.empty 0 1 3).2.1 2 (by decide),
    ((C4_leaf_getGrad_delta Heap.empty 0 1 3).2.2 2 4 (by decide)).2⟩

/-- C5, the code on the Variables the claim names: a leaf constructed at any
address from any literal, after any `setVal`, and the result of `operator+` on
any operands (moved out of the local, or being the local itself) never return
from `getVal()`: no recursion depth yields a number. -/
theorem C5_getVal_not_total :
    (∀ (h : Heap) (a : Addr) (v w : ℚ),
        ¬ ∃ (fuel : Nat) (r : ℚ),
          ((Var.construct a v).setVal w).getVal (h.store a ((Var.construct a v).setVal w)) fuel
            = some r)
    ∧ (∀ (h : Heap) (zaddr : Addr) (x y : Var),
        ¬ ∃ (fuel : Nat) (r : ℚ),
          (Var.add zaddr x y).getVal (h.store zaddr (Var.add zaddr x y)) fuel = some r)
    ∧ (∀ (h : Heap) (zaddr : Addr) (x y : Var),
        ¬ ∃ (fuel : Nat) (r : ℚ),
          (Var.add zaddr x y).getVal
            ((h.free zaddr).store (zaddr + 1) (Var.add zaddr x y)) fuel = some r) := by
  refine ⟨?_, ?_, ?_⟩
  · rintro h a v w ⟨fuel, r, hr⟩
    rw [Var.getVal_seed_self _ a _ [] (by simp [Heap.store]) rfl fuel] at hr
    cases hr
  · rintro h zaddr x y ⟨fuel, r, hr⟩
    rw [Var.getVal_seed_self _ zaddr _ [] (by simp [Heap.store])
      (Var.m_val_expressions_add zaddr x y) fuel] at hr
    cases hr
  · rintro h zaddr x y ⟨fuel, r, hr⟩
    rw [Var.getVal_seed_dangling _ zaddr _ [] (by simp [Heap.store, Heap.free])
      (Var.m_val_expressions_add zaddr x y) fuel] at hr
    cases hr

/-- C7 as stated fails at a key that is the address of the local `z` of the
addition.  With leaves at 1 and 2, `u = x + y` and `w = u + u`, both additions
having their local at 3 (two calls from one frame), 3 is a key of `u`, under
which `u` holds one expression and `w` holds three, not two: `w.getGrad` on
that key is `3` where twice that of `u` is `2`. -/
theorem C7_local_key_not_doubled :
    (3 : Addr) ∈ (Var.add 3 (Var.construct 1 1) (Var.construct 2 2)).m_grad_expressions.keys
    ∧ (((Var.add 3 (Var.construct 1 1) (Var.construct 2 2)).m_grad_expressions.find 3).getD
        []).length = 1
    ∧ (((Var.add 3 (Var.add 3 (Var.construct 1 1) (Var.construct 2 2))
          (Var.add 3 (Var.construct 1 1) (Var.construct 2 2))).m_grad_expressions.find 3).getD
        []).length = 3
    ∧ (Var.add 3 (Var.add 3 (Var.construct 1 1) (Var.construct 2 2))
        (Var.add 3 (Var.construct 1 1) (Var.construct 2 2))).getGrad Heap.empty 0 3 = some 3
    ∧ ((Var.add 3 (Var.construct 1 1) (Var.construct 2 2)).getGrad Heap.empty 0 3).map
        (fun g => 2 * g) = some 2
    ∧ (Var.add 3 (Var.add 3 (Var.construct 1 1) (Var.construct 2 2))
        (Var.add 3 (Var.construct 1 1) (Var.construct 2 2))).getGrad Heap.empty 0 3
      ≠ ((Var.add 3 (Var.construct 1 1) (Var.construct 2 2)).getGrad Heap.empty 0 3).map
        (fun g => 2 * g) := by
  have hw : (Var.add 3 (Var.add 3 (Var.construct 1 1) (Var.construct 2 2))
      (Var.add 3 (Var.construct 1 1) (Var.construct 2 2))).getGrad Heap.empty 0 3 = some 3 := by
    simp [Var.getGrad, Var.add, Var.mergeGrad, Var.constructDefault, Var.construct,
      Var.addGradExpressionVec, GradMap.assign, GradMap.modify, GradMap.find, sumEval,
      Expression.eval, init_grad_exp]
    norm_num
  have hu : ((Var.add 3 (Var.construct 1 1) (Var.construct 2 2)).getGrad Heap.empty 0 3).map
      (fun g => 2 * g) = some 2 := by
    simp [Var.getGrad, Var.add, Var.mergeGrad, Var.constructDefault, Var.construct,
      Var.addGradExpressionVec, GradMap.assign, GradMap.modify, GradMap.find, sumEval,
      Expression.eval, init_grad_exp]
  refine ⟨by decide, rfl, rfl, hw, hu, ?_⟩
  rw [hw, hu]
  intro h
  have h32 : (3 : ℚ) = 2 := Option.some.inj h
  norm_num at h32

/-- C7 amended. Aliased operands: for every Variable `x` (its gradient map a
map) and every key `k` other than the address of the local `z` of the
addition, `w = x + x` stores under `k` the list of `x` twice, and, doubles read
as exact reals, `w.getGrad(k) = 2 * x.getGrad(k)`; for a leaf `x`,
`w.getGrad(x) = 2`. -/
theorem C7_add_self_doubles (heap : Heap) (fuel : Nat) (zaddr : Addr) (x : Var)
    (hx : x.m_grad_expressions.WF) (k : Addr) (hk : k ≠ zaddr) :
    ((Var.add zaddr x x).m_grad_expressions.find k).getD []
        = (x.m_grad_expressions.find k).getD [] ++ (x.m_grad_expressions.find k).getD []
    ∧ (Var.add zaddr x x).getGrad heap fuel k
        = (x.getGrad heap fuel k).map (fun g => 2 * g)
    ∧ (∀ v : ℚ, (Var.add zaddr (Var.construct k v) (Var.construct k v)).getGrad heap fuel k
        = some 2) := by
  refine ⟨Var.find_add zaddr x x hx hx k hk, ?_, ?_⟩
  · rw [Var.getGrad_add heap fuel zaddr x x hx hx k hk]
    cases x.getGrad heap fuel k with
    | none => rfl
    | some g => simp [two_mul]
  · intro v
    rw [Var.getGrad_add heap fuel zaddr _ _ (Var.WF_construct k v) (Var.WF_construct k v) k hk,
      Var.getGrad_construct_self]
    norm_num

/-- Witness of C7: the leaf `x = 2.0` at 1 and `w = x + x`. -/
theorem C7_add_self_doubles_witness :
    (Var.construct 1 2).m_grad_expressions.WF ∧ (1 : Addr) ≠ 3
    ∧ (Var.add 3 (Var.construct 1 2) (Var.construct 1 2)).getGrad Heap.empty 0 1 = some 2 :=
  ⟨by decide, by decide,
    (C7_add_self_doubles Heap.empty 0 3 (Var.construct 1 2) (by decide) 1
      (by decide)).right.right 2⟩

/-- C8, the code at the failing input `x = 1.0`, `y = 2.0`, `z = x + y`,
`x.setVal( 10.0 )`: the value-expressions of `z` do not mention `x`, and
`z.getVal()` returns no value (so not `10 + 2`) at any recursion depth,
whether the result was moved out of the local or is the local itself. -/
theorem C8_setVal_not_observed :
    (Var.add 3 (Var.construct 1 1) (Var.construct 2 2)).m_val_expressions
        = [Expression.mk init_val_exp (some 3) none]
    ∧ (∀ fuel : Nat,
        (Var.add 3 (Var.construct 1 1) (Var.construct 2 2)).getVal heapLive fuel = none)
    ∧ (∀ fuel : Nat,
        (Var.add 3 (Var.construct 1 1) (Var.construct 2 2)).getVal heapLiveInPlace fuel
          = none) :=
  ⟨Var.m_val_expressions_add 3 _ _,
    fun fuel => Var.getVal_seed_dangling heapLive 3 _ []
      (by simp [heapLive, Heap.store, Heap.empty]) (Var.m_val_expressions_add 3 _ _) fuel,
    fun fuel => Var.getVal_seed_self heapLiveInPlace 3 _ []
      (by simp [heapLiveInPlace, Heap.store]) (Var.m_val_expressions_add 3 _ _) fuel⟩

/-- C9. Lookup semantics of `getGrad`: when `on_input` is not a key of the gradient
map, `getGrad(on_input)` returns `0` (at every recursion depth, so it never fails);
when a list is stored under `on_input`, it returns exactly the sum of the
evaluations of the expressions of that list, which is `0` for the empty list. -/
theorem C9_getGrad_lookup (heap : Heap) (fuel : Nat) (v : Var) (on_input : Addr) :
    (on_input ∉ v.m_grad_expressions.keys → v.getGrad heap fuel on_input = some 0)
    ∧ (∀ exps : List Expression, v.m_grad_expressions.find on_input = some exps →
        v.getGrad heap fuel on_input
          = (exps.mapM (fun e : Expression => e.eval (callGetVal heap fuel))).map List.sum)
    ∧ (v.m_grad_expressions.find on_input = some [] → v.getGrad heap fuel on_input = some 0) := by
  refine ⟨?_, ?_, ?_⟩
  · intro h
    rw [Var.getGrad_eq, (GradMap.find_eq_none_iff _ _).2 h]
    rfl
  · intro exps h
    rw [Var.getGrad_eq, h, ← sumEval_eq_mapM]
    rfl
  · intro h
    rw [Var.getGrad_eq, h]
    rfl

/-- Witness of C9: the leaf at 1 asked for 2 (absent) and for itself (present). -/
theorem C9_getGrad_lookup_witness :
    (2 : Addr) ∉ (Var.construct 1 3).m_grad_expressions.keys
    ∧ (Var.construct 1 3).m_grad_expressions.find 1
        = some [Expression.mk init_grad_exp (some 1) none]
    ∧ (Var.construct 1 3).getGrad Heap.empty 0 2 = some 0
    ∧ (Var.construct 1 3).getGrad Heap.empty 0 1
        = ([Expression.mk init_grad_exp (some 1) none].mapM
            (fun e : Expression => e.eval (callGetVal Heap.empty 0))).map List.sum :=
  ⟨by decide, rfl, (C9_getGrad_lookup Heap.empty 0 (Var.construct 1 3) 2).1 (by decide),
    (C9_getGrad_lookup Heap.empty 0 (Var.construct 1 3) 1).2.1 _ rfl⟩

/-- C10 as stated fails: for leaves `x` at 1 and `y` at 2 and `z = x + y` with
the local at 3, the key set of `z` is not the union of the key sets of `x`
and `y` (it also holds 3). -/
theorem C10_keys_not_union :
    ¬ ((Var.add 3 (Var.construct 1 3) (Var.construct 2 4)).m_grad_expressions.keys.toFinset
        = (Var.construct 1 3).m_grad_expressions.keys.toFinset
          ∪ (Var.construct 2 4).m_grad_expressions.keys.toFinset) := by
  decide

/-- C10 amended. The key set of the gradient map of `z = x + y` is exactly the
union of the key sets of the maps of `x` and `y` together with the key the
constructor of the result seeded: the identity of the `Var z` that
`operator+` constructs. -/
theorem C10_keys_add (zaddr : Addr) (x y : Var) :
    (Var.add zaddr x y).m_grad_expressions.keys.toFinset
      = insert zaddr (x.m_grad_expressions.keys.toFinset ∪ y.m_grad_expressions.keys.toFinset) := by
  ext k
  rw [Var.add_eq]
  simp only [List.mem_toFinset, Finset.mem_insert, Finset.mem_union, Var.keys_mergeGrad]
  have hz : k ∈ (Var.constructDefault zaddr).m_grad_expressions.keys ↔ k = zaddr := by
    simp [Var.constructDefault, Var.construct, GradMap.assign, GradMap.keys]
  rw [hz]
  tauto

/-- C11, the code at the failing input `Var x( 3.0 ); Var y( 4.0 ); Var z = x + y;`
(`x` at 1, `y` at 2, the local of `operator+` at 3, `z` at 4): the object at 4
has a value-expression and a non-empty gradient entry, but that entry is
keyed by 3, the address of the destroyed local, and no entry is keyed by 4,
the identity of `z`; so `z.getGrad( z )` is `0`. -/
theorem C11_sum_not_keyed_by_itself :
    ((Heap.empty.store 1 (Var.construct 1 3)).store 2 (Var.construct 2 4)).plusAt 1 2 3 4 4
        = some (Var.add 3 (Var.construct 1 3) (Var.construct 2 4))
    ∧ (Var.add 3 (Var.construct 1 3) (Var.construct 2 4)).m_val_expressions ≠ []
    ∧ (Var.add 3 (Var.construct 1 3) (Var.construct 2 4)).m_grad_expressions.find 3
        = some [Expression.mk init_grad_exp (some 3) none]
    ∧ (Var.add 3 (Var.construct 1 3) (Var.construct 2 4)).m_grad_expressions.find 4 = none
    ∧ (∀ fuel : Nat,
        (Var.add 3 (Var.construct 1 3) (Var.construct 2 4)).getGrad
          (((Heap.empty.store 1 (Var.construct 1 3)).store 2 (Var.construct 2 4)).plusAt 1 2 3 4)
          fuel 4 = some 0) := by
  have hfind : (Var.add 3 (Var.construct 1 3) (Var.construct 2 4)).m_grad_expressions.find 4
      = none := (GradMap.find_eq_none_iff _ _).2 (by decide)
  refine ⟨rfl, ?_, rfl, hfind, ?_⟩
  · rw [Var.m_val_expressions_add]
    exact List.cons_ne_nil _ _
  · intro fuel
    rw [Var.getGrad_eq, hfind]
    rfl

/-- C12 as stated fails for the `double`s the code adds.  A Variable holds
`[0.75]` under key 2; `addGradExpression( 2, [1e16, -1e16] )` appends two
expressions whose evaluations sum to `0`; `getGrad( 2 )` was `0.75` and is `0`
afterwards (`0.75 + 1e16` rounds to `1e16`), not `0.75` increased by that sum. -/
theorem C12_rounded_sum_not_increased :
    ((Var.construct 1 0).addGradExpressionVec 2
        [constExpression (3 / 4)]).m_grad_expressions.find 2
      = some [constExpression (3 / 4)]
    ∧ ((Var.construct 1 0).addGradExpressionVec 2
        [constExpression (3 / 4)]).getGradDouble Heap.empty 0 2 = some (3 / 4)
    ∧ sumEvalDouble (fun a => (Heap.empty a).bind (Var.getValDouble Heap.empty 0))
        [constExpression 10000000000000000, constExpression (-10000000000000000)] = some 0
    ∧ (((Var.construct 1 0).addGradExpressionVec 2
          [constExpression (3 / 4)]).addGradExpressionVec 2
        [constExpression 10000000000000000,
          constExpression (-10000000000000000)]).getGradDouble Heap.empty 0 2 = some 0
    ∧ doubleAdd (3 / 4) 0 = 3 / 4
    ∧ (((Var.construct 1 0).addGradExpressionVec 2
          [constExpression (3 / 4)]).addGradExpressionVec 2
        [constExpression 10000000000000000,
          constExpression (-10000000000000000)]).getGradDouble Heap.empty 0 2
      ≠ some (doubleAdd (3 / 4) 0) := by
  have hfind : ((Var.construct 1 0).addGradExpressionVec 2
      [constExpression (3 / 4)]).m_grad_expressions.find 2
        = some [constExpression (3 / 4)] := rfl
  have hafter : (((Var.construct 1 0).addGradExpressionVec 2
        [constExpression (3 / 4)]).addGradExpressionVec 2
      [constExpression 10000000000000000,
        constExpression (-10000000000000000)]).getGradDouble Heap.empty 0 2 = some 0 := by
    unfold Var.getGradDouble
    rw [Var.find_addGradExpressionVec, if_pos rfl, hfind]
    exact sumEvalDouble_three _
  have hadd : doubleAdd (3 / 4) 0 = 3 / 4 := by
    simp only [doubleAdd]
    norm_num [roundDouble_three_quarters]
  refine ⟨hfind, ?_, sumEvalDouble_two _, hafter, hadd, ?_⟩
  · unfold Var.getGradDouble
    rw [hfind]
    exact sumEvalDouble_one _
  · rw [hafter, hadd]
    intro h
    have h0 : (0 : ℚ) = 3 / 4 := Option.some.inj h
    norm_num at h0

/-- C12 amended. `addGradExpression` accumulates and never overwrites: after
`v.addGradExpression( k, exps )` the list under `k` is the previous list (empty
when `k` was absent) followed by `exps`; the list under every other key is
unchanged; doubles read as exact reals, `getGrad( k )` has increased by the sum
of the evaluations of `exps`; a second call on the same key appends after the
first; and the single-expression overload appends its one expression in the
same way. -/
theorem C12_addGradExpression_accumulates (heap : Heap) (fuel : Nat) (v : Var) (k : Addr)
    (exps : List Expression) :
    (v.addGradExpressionVec k exps).m_grad_expressions.find k
        = some ((v.m_grad_expressions.find k).getD [] ++ exps)
    ∧ (∀ k2 : Addr, k2 ≠ k →
        (v.addGradExpressionVec k exps).m_grad_expressions.find k2
          = v.m_grad_expressions.find k2)
    ∧ (v.addGradExpressionVec k exps).getGrad heap fuel k
        = (v.getGrad heap fuel k).bind (fun g =>
            (sumEval (callGetVal heap fuel) exps).map (fun s => g + s))
    ∧ (∀ exps2 : List Expression,
        ((v.addGradExpressionVec k exps).addGradExpressionVec k exps2).m_grad_expressions.find k
          = some ((v.m_grad_expressions.find k).getD [] ++ exps ++ exps2))
    ∧ (∀ e : Expression,
        (v.addGradExpression k e).m_grad_expressions.find k
            = some ((v.m_grad_expressions.find k).getD [] ++ [e])
        ∧ ∀ k2 : Addr, k2 ≠ k →
            (v.addGradExpression k e).m_grad_expressions.find k2
              = v.m_grad_expressions.find k2) := by
  refine ⟨?_, ?_, Var.getGrad_addGradExpressionVec heap fuel v k exps, ?_, ?_⟩
  · rw [Var.find_addGradExpressionVec, if_pos rfl]
  · intro k2 hk2
    rw [Var.find_addGradExpressionVec, if_neg hk2]
  · intro exps2
    rw [Var.find_addGradExpressionVec, if_pos rfl, Var.find_addGradExpressionVec, if_pos rfl]
    rfl
  · intro e
    rw [Var.addGradExpression_eq_vec]
    refine ⟨?_, ?_⟩
    · rw [Var.find_addGradExpressionVec, if_pos rfl]
    · intro k2 hk2
      rw [Var.find_addGradExpressionVec, if_neg hk2]

/-- Witness of C12: the leaf at 1 given a second expression under its own key 1;
the key 2 stays absent. -/
theorem C12_addGradExpression_accumulates_witness :
    (2 : Addr) ≠ 1
    ∧ ((Var.construct 1 3).addGradExpressionVec 1
          [Expression.mk init_grad_exp (some 1) none]).m_grad_expressions.find 1
        = some (((Var.construct 1 3).m_grad_expressions.find 1).getD []
            ++ [Expression.mk init_grad_exp (some 1) none])
    ∧ ((Var.construct 1 3).addGradExpressionVec 1
          [Expression.mk init_grad_exp (some 1) none]).m_grad_expressions.find 2
        = (Var.construct 1 3).m_grad_expressions.find 2 :=
  ⟨by decide,
    (C12_addGradExpression_accumulates Heap.empty 0 (Var.construct 1 3) 1
      [Expression.mk init_grad_exp (some 1) none]).1,
    (C12_addGradExpression_accumulates Heap.empty 0 (Var.construct 1 3) 1
      [Expression.mk init_grad_exp (some 1) none]).2.1 2 (by decide)⟩

/-- C14. `addValExpression` is append-only: the value-expression list becomes
the previous list followed by the new expression (the previous entries keep
their places), and the gradient map and the stored literal are unchanged. -/
theorem C14_addValExpression_appends (v : Var) (e : Expression) :
    (v.addValExpression e).m_val_expressions = v.m_val_expressions ++ [e]
    ∧ v.m_val_expressions <+: (v.addValExpression e).m_val_expressions
    ∧ (v.addValExpression e).m_grad_expressions = v.m_grad_expressions
    ∧ (v.addValExpression e).m_val = v.m_val :=
  ⟨rfl, List.prefix_append _ _, rfl, rfl⟩

/-- C15 as stated fails at the key of the local `z`, which is not the identity
of the result.  After `Var z = x + y;` with leaves `x` at 1, `y` at 2, the local
of `operator+` at 3 and `z` at 4, the key 3 is not the identity 4 of the result
and is a key of neither operand, yet `z` stores the seeded expression under it:
one expression, where the lists of `x` and `y` under 3 give none. -/
theorem C15_local_key_not_merged :
    ((Heap.empty.store 1 (Var.construct 1 3)).store 2 (Var.construct 2 4)).plusAt 1 2 3 4 4
        = some (Var.add 3 (Var.construct 1 3) (Var.construct 2 4))
    ∧ (3 : Addr) ≠ 4
    ∧ (Var.construct 1 3).m_grad_expressions.find 3 = none
    ∧ (Var.construct 2 4).m_grad_expressions.find 3 = none
    ∧ (Var.add 3 (Var.construct 1 3) (Var.construct 2 4)).m_grad_expressions.find 3
        = some [Expression.mk init_grad_exp (some 3) none]
    ∧ ((Var.add 3 (Var.construct 1 3) (Var.construct 2 4)).m_grad_expressions.find 3).getD []
      ≠ ((Var.construct 1 3).m_grad_expressions.find 3).getD []
          ++ ((Var.construct 2 4).m_grad_expressions.find 3).getD [] := by
  refine ⟨rfl, by decide, rfl, rfl, rfl, ?_⟩
  intro h
  have hlen := congrArg List.length h
  revert hlen
  decide

/-- C15 amended. Structural merge in `operator+`: for all Variables `x`, `y`
(their gradient maps being maps) and every key `k` other than the address of
the local `z` of `operator+` (the key the constructor seeded; the returned
object itself lives elsewhere), the list stored under `k` in `z = x + y` is
the list of `x` under `k` followed by the list of `y` under `k`, a missing key
counting as the empty list; the expressions are the stored ones themselves,
none dropped or repeated; and `k` is a key of `z` exactly when it is a key of
`x` or of `y`. -/
theorem C15_add_merges_lists (zaddr : Addr) (x y : Var) (hx : x.m_grad_expressions.WF)
    (hy : y.m_grad_expressions.WF) (k : Addr) (hk : k ≠ zaddr) :
    ((Var.add zaddr x y).m_grad_expressions.find k).getD []
        = (x.m_grad_expressions.find k).getD [] ++ (y.m_grad_expressions.find k).getD []
    ∧ (k ∈ (Var.add zaddr x y).m_grad_expressions.keys
        ↔ k ∈ x.m_grad_expressions.keys ∨ k ∈ y.m_grad_expressions.keys) := by
  refine ⟨Var.find_add zaddr x y hx hy k hk, ?_⟩
  rw [Var.add_eq, Var.keys_mergeGrad, Var.keys_mergeGrad]
  have hz : k ∉ (Var.constructDefault zaddr).m_grad_expressions.keys := by
    simp [Var.constructDefault, Var.construct, GradMap.assign, GradMap.keys, hk]
  tauto

/-- Witness of C15: `x` the leaf at 1, `y = x + (leaf at 2)` with local at 3,
`z = x + y` with local at 4, key 1 (held by both operands). -/
theorem C15_add_merges_lists_witness :
    (Var.construct 1 3).m_grad_expressions.WF
    ∧ (Var.add 3 (Var.construct 1 3) (Var.construct 2 4)).m_grad_expressions.WF
    ∧ (1 : Addr) ≠ 4
    ∧ ((Var.add 4 (Var.construct 1 3)
          (Var.add 3 (Var.construct 1 3) (Var.construct 2 4))).m_grad_expressions.find 1).getD []
        = ((Var.construct 1 3).m_grad_expressions.find 1).getD []
          ++ ((Var.add 3 (Var.construct 1 3)
                (Var.construct 2 4)).m_grad_expressions.find 1).getD [] :=
  ⟨by decide, by decide, by decide,
    (C15_add_merges_lists 4 (Var.construct 1 3)
      (Var.add 3 (Var.construct 1 3) (Var.construct 2 4)) (by decide) (by decide) 1
      (by decide)).1⟩

/-- C16. The stored literal does not influence any read: in two memories that
differ only in the stored literals of their Variables, every `getVal()` and
every `getGrad( on_input )` has the same outcome; `setVal` changes the stored
literal only, and every `getGrad` result is the same before and after it. -/
theorem C16_literal_not_read (h₁ h₂ : Heap) (hh : h₁.sameButVal h₂) (v w : Var)
    (hvw : v.sameButVal w) (fuel : Nat) (on_input : Addr) :
    v.getVal h₁ fuel = w.getVal h₂ fuel
    ∧ v.getGrad h₁ fuel on_input = w.getGrad h₂ fuel on_input
    ∧ (∀ (this : Addr) (val : ℚ),
        (v.setVal val).m_val = val
        ∧ (v.setVal val).m_val_expressions = v.m_val_expressions
        ∧ (v.setVal val).m_grad_expressions = v.m_grad_expressions
        ∧ h₁.sameButVal (h₁.setValAt this val)
        ∧ (v.setVal val).getGrad (h₁.setValAt this val) fuel on_input
            = v.getGrad h₁ fuel on_input
        ∧ v.getGrad (h₁.setValAt this val) fuel on_input = v.getGrad h₁ fuel on_input) := by
  refine ⟨Var.getVal_sameButVal h₁ h₂ hh fuel v w hvw,
    Var.getGrad_sameButVal h₁ h₂ hh fuel v w hvw on_input, ?_⟩
  intro this val
  refine ⟨rfl, rfl, rfl, Heap.sameButVal_setValAt h₁ this val, ?_, ?_⟩
  · exact (Var.getGrad_sameButVal h₁ _ (Heap.sameButVal_setValAt h₁ this val) fuel v _
      (Var.sameButVal_setVal v val) on_input).symm
  · exact (Var.getGrad_sameButVal h₁ _ (Heap.sameButVal_setValAt h₁ this val) fuel v v
      ⟨rfl, rfl, rfl⟩ on_input).symm

/-- Witness of C16: the leaf `x = 1.0` at 1, before and after `x.setVal( 10.0 )`. -/
theorem C16_literal_not_read_witness :
    (Heap.empty.store 1 (Var.construct 1 1)).sameButVal
        ((Heap.empty.store 1 (Var.construct 1 1)).setValAt 1 10)
    ∧ (Var.construct 1 1).sameButVal ((Var.construct 1 1).setVal 10)
    ∧ (Var.construct 1 1).getGrad (Heap.empty.store 1 (Var.construct 1 1)) 2 1
        = ((Var.construct 1 1).setVal 10).getGrad
            ((Heap.empty.store 1 (Var.construct 1 1)).setValAt 1 10) 2 1 :=
  ⟨Heap.sameButVal_setValAt _ 1 10, ⟨rfl, rfl, rfl⟩,
    (C16_literal_not_read (Heap.empty.store 1 (Var.construct 1 1))
      ((Heap.empty.store 1 (Var.construct 1 1)).setValAt 1 10)
      (Heap.sameButVal_setValAt _ 1 10) (Var.construct 1 1) ((Var.construct 1 1).setVal 10)
      ⟨rfl, rfl, rfl⟩ 2 1).2.1⟩

/-- C17. `operator+` does not modify its operands: after `Var r = x + y;` (the
result placed at an address `r` and the local at an address `zaddr` where no
object lived) every object that existed, so `x` and `y`, also when they are the
same Variable, is exactly what it was, and every `getGrad` of such an object is
unchanged. -/
theorem C17_add_leaves_operands (h : Heap) (self other zaddr r : Addr) (hr : h r = none)
    (hz : h zaddr = none) :
    (h.plusAt self other zaddr r) self = h self
    ∧ (h.plusAt self other zaddr r) other = h other
    ∧ (h.plusAt self self zaddr r) self = h self
    ∧ (∀ (a : Addr) (v : Var), h a = some v → (h.plusAt self other zaddr r) a = some v)
    ∧ (∀ (v : Var) (fuel : Nat) (k : Addr),
        v.getGrad (h.plusAt self other zaddr r) fuel k = v.getGrad h fuel k) := by
  have hframe : ∀ (s o a : Addr), (h.plusAt s o zaddr r) a = h a ∨ h a = none := by
    intro s o a
    cases ha : h a with
    | none => exact Or.inr rfl
    | some v => exact Or.inl (Heap.plusAt_frame h s o zaddr r hr hz a v ha)
  have hop : ∀ (s o a : Addr), (a = s ∨ a = o) → (h.plusAt s o zaddr r) a = h a := by
    intro s o a hso
    rcases hframe s o a with hsame | hnone
    · exact hsame
    · have hid : h.plusAt s o zaddr r = h := by
        unfold Heap.plusAt
        rcases hso with rfl | rfl
        · rw [hnone]
        · rw [hnone]
          cases h s <;> rfl
      rw [hid]
  refine ⟨hop self other self (Or.inl rfl), hop self other other (Or.inr rfl),
    hop self self self (Or.inl rfl), ?_, ?_⟩
  · intro a v ha
    exact Heap.plusAt_frame h self other zaddr r hr hz a v ha
  · intro v fuel k
    rw [Var.getGrad_eq, Var.getGrad_eq, callGetVal_plusAt h self other zaddr r hr hz fuel]

/-- Witness of C17: `x` at 1, `y` at 2, `Var z = x + y;` with the local at 3 and
`z` at 4. -/
theorem C17_add_leaves_operands_witness :
    ((Heap.empty.store 1 (Var.construct 1 3)).store 2 (Var.construct 2 4)) 4 = none
    ∧ ((Heap.empty.store 1 (Var.construct 1 3)).store 2 (Var.construct 2 4)) 3 = none
    ∧ (((Heap.empty.store 1 (Var.construct 1 3)).store 2 (Var.construct 2 4)).plusAt 1 2 3 4) 1
        = ((Heap.empty.store 1 (Var.construct 1 3)).store 2 (Var.construct 2 4)) 1
    ∧ (((Heap.empty.store 1 (Var.construct 1 3)).store 2 (Var.construct 2 4)).plusAt 1 2 3 4) 2
        = ((Heap.empty.store 1 (Var.construct 1 3)).store 2 (Var.construct 2 4)) 2 :=
  ⟨rfl, rfl,
    (C17_add_leaves_operands
      ((Heap.empty.store 1 (Var.construct 1 3)).store 2 (Var.construct 2 4)) 1 2 3 4 rfl rfl).1,
    (C17_add_leaves_operands
      ((Heap.empty.store 1 (Var.construct 1 3)).store 2 (Var.construct 2 4)) 1 2 3 4 rfl
      rfl).2.1⟩

/-- C18. Gradient of addition is commutative: for all Variables `x`, `y` (their
gradient maps being maps) and every `k` that is not the local of either
addition, `(x + y).getGrad( k )` equals `(y + x).getGrad( k )`, although the list
stored under `k` is `x`-then-`y` in the first and `y`-then-`x` in the second. -/
theorem C18_getGrad_add_comm (heap : Heap) (fuel : Nat) (z₁ z₂ : Addr) (x y : Var)
    (hx : x.m_grad_expressions.WF) (hy : y.m_grad_expressions.WF) (k : Addr)
    (hk₁ : k ≠ z₁) (hk₂ : k ≠ z₂) :
    (Var.add z₁ x y).getGrad heap fuel k = (Var.add z₂ y x).getGrad heap fuel k
    ∧ ((Var.add z₁ x y).m_grad_expressions.find k).getD []
        = (x.m_grad_expressions.find k).getD [] ++ (y.m_grad_expressions.find k).getD []
    ∧ ((Var.add z₂ y x).m_grad_expressions.find k).getD []
        = (y.m_grad_expressions.find k).getD [] ++ (x.m_grad_expressions.find k).getD [] := by
  refine ⟨?_, Var.find_add z₁ x y hx hy k hk₁, Var.find_add z₂ y x hy hx k hk₂⟩
  rw [Var.getGrad_add heap fuel z₁ x y hx hy k hk₁, Var.getGrad_add heap fuel z₂ y x hy hx k hk₂]
  cases x.getGrad heap fuel k with
  | none => cases y.getGrad heap fuel k <;> rfl
  | some a =>
    cases y.getGrad heap fuel k with
    | none => rfl
    | some b => simp [add_comm]

/-- Witness of C18: leaves `x` at 1 and `y` at 2, `x + y` with local at 3,
`y + x` with local at 4, gradient on `x`. -/
theorem C18_getGrad_add_comm_witness :
    (Var.construct 1 3).m_grad_expressions.WF ∧ (Var.construct 2 4).m_grad_expressions.WF
    ∧ (1 : Addr) ≠ 3 ∧ (1 : Addr) ≠ 4
    ∧ (Var.add 3 (Var.construct 1 3) (Var.construct 2 4)).getGrad Heap.empty 0 1
        = (Var.add 4 (Var.construct 2 4) (Var.construct 1 3)).getGrad Heap.empty 0 1 :=
  ⟨by decide, by decide, by decide, by decide,
    (C18_getGrad_add_comm Heap.empty 0 3 4 (Var.construct 1 3) (Var.construct 2 4) (by decide)
      (by decide) 1 (by decide) (by decide)).1⟩

/-- C19. The two `addGradExpression` overloads agree: for every Variable `v`,
key `k` and expression `e`, the single-expression overload leaves `v` exactly as
the vector overload called with the one-element list does, whether `k` is
already a key (the expression is appended) or not (a new one-element list). -/
theorem C19_addGradExpression_overloads_agree (v : Var) (k : Addr) (e : Expression) :
    v.addGradExpression k e = v.addGradExpressionVec k [e]
    ∧ (v.addGradExpression k e).m_grad_expressions
        = (v.addGradExpressionVec k [e]).m_grad_expressions
    ∧ (∀ es : List Expression, v.m_grad_expressions.find k = some es →
        (v.addGradExpression k e).m_grad_expressions.find k = some (es ++ [e])
        ∧ (v.addGradExpressionVec k [e]).m_grad_expressions.find k = some (es ++ [e]))
    ∧ (v.m_grad_expressions.find k = none →
        (v.addGradExpression k e).m_grad_expressions.find k = some [e]
        ∧ (v.addGradExpressionVec k [e]).m_grad_expressions.find k = some [e]) := by
  have heq := Var.addGradExpression_eq_vec v k e
  refine ⟨heq, by rw [heq], ?_, ?_⟩
  · intro es hes
    rw [heq, Var.find_addGradExpressionVec, if_pos rfl, hes]
    exact ⟨rfl, rfl⟩
  · intro hnone
    rw [heq, Var.find_addGradExpressionVec, if_pos rfl, hnone]
    exact ⟨rfl, rfl⟩

/-- Witness of C19: the leaf at 1, with key 1 (present) and key 2 (absent). -/
theorem C19_addGradExpression_overloads_agree_witness :
    (Var.construct 1 3).m_grad_expressions.find 1
        = some [Expression.mk init_grad_exp (some 1) none]
    ∧ (Var.construct 1 3).m_grad_expressions.find 2 = none
    ∧ ((Var.construct 1 3).addGradExpression 1
          (Expression.mk init_grad_exp (some 5) none)).m_grad_expressions.find 1
        = some ([Expression.mk init_grad_exp (some 1) none]
            ++ [Expression.mk init_grad_exp (some 5) none])
    ∧ ((Var.construct 1 3).addGradExpression 2
          (Expression.mk init_grad_exp (some 5) none)).m_grad_expressions.find 2
        = some [Expression.mk init_grad_exp (some 5) none] :=
  ⟨rfl, rfl,
    ((C19_addGradExpression_overloads_agree (Var.construct 1 3) 1
      (Expression.mk init_grad_exp (some 5) none)).2.2.1 _ rfl).1,
    ((C19_addGradExpression_overloads_agree (Var.construct 1 3) 2
      (Expression.mk init_grad_exp (some 5) none)).2.2.2 rfl).1⟩

end AutoDiff
